import Mathlib

/-
Verification of the MOEA/D optimizer (ensmallen `moead.hpp`).

The repository provides the class declaration `MOEAD` in
`include/ensmallen_bits/moead/moead.hpp` (constructor defaults, accessor
pairs, private member declarations) together with a test helper.  The
implementation file `moead_impl.hpp` that the header includes is not part
of the sources, so the bodies of `DecomposedSingleObjective`, `Dominates`,
`Mutate`, the weight/neighbourhood generator, the ideal-point update, the
neighbour-replacement step and the best-front maintenance are modelled
here from the specification's own description of those components.
Machine doubles are idealised as rationals; for the dominance claims about
non-finite values an explicit IEEE-style value type with NaN and signed
infinities is used, on which comparisons (the only operations `Dominates`
performs) are exact.
-/

/-- Modelled from the spec: an IEEE-754 double as used for objective values.
The implementation stores objective values in `arma::vec` (doubles); this
type keeps the exactly representable comparison behaviour: `nan` compares
false with everything, infinities compare as extreme elements, and finite
values are idealised as rationals.  `Dominates` only ever compares values,
and IEEE comparisons are exact, so this embedding is faithful for the
dominance claims. -/
inductive FpVal where
  | nan
  | negInf
  | fin (q : ℚ)
  | posInf
deriving DecidableEq, Repr

/-- IEEE-style `<=` on double values: any comparison with NaN is false. -/
def FpVal.fle : FpVal → FpVal → Bool
  | .nan, _ => false
  | _, .nan => false
  | .negInf, _ => true
  | _, .negInf => false
  | .fin q, .fin r => q ≤ r
  | .fin _, .posInf => true
  | .posInf, .posInf => true
  | .posInf, .fin _ => false

/-- IEEE-style `<` on double values, derived from `fle`; false whenever a
NaN is involved. -/
def FpVal.flt (a b : FpVal) : Bool := a.fle b && !(b.fle a)

instance : LE FpVal := ⟨fun a b => a.fle b = true⟩

instance : LT FpVal := ⟨fun a b => a.flt b = true⟩

instance : DecidableRel ((· ≤ ·) : FpVal → FpVal → Prop) :=
  fun a b => inferInstanceAs (Decidable (a.fle b = true))

instance : DecidableRel ((· < ·) : FpVal → FpVal → Prop) :=
  fun a b => inferInstanceAs (Decidable (a.flt b = true))

/-- True exactly on finite double values (neither NaN nor an infinity). -/
def FpVal.isFinite : FpVal → Bool
  | .fin _ => true
  | _ => false

/-- Modelled from the spec: `MOEAD::Dominates(first, second)` (declared at
moead.hpp lines 159-160, body in the missing `moead_impl.hpp`).  Per spec
4.3 it is true iff `first` is no worse than `second` in every objective and
strictly better in at least one, under the minimization convention.  Stated
generically over the componentwise comparisons so it can be read both at
the rational idealisation and at the IEEE value type. -/
def Dominates {α : Type} [LE α] [LT α]
    [DecidableRel ((· ≤ ·) : α → α → Prop)] [DecidableRel ((· < ·) : α → α → Prop)]
    (first second : List α) : Bool :=
  ((first.zip second).all fun p => decide (p.1 ≤ p.2)) &&
  ((first.zip second).any fun p => decide (p.1 < p.2))

/-- Modelled from the spec: the fixed small epsilon substituted for zero
weight components in the Tchebycheff decomposition (spec 4.2).  The spec
fixes no numeric value; any positive constant plays the same role. -/
def moeadEpsilon : ℚ := 1 / 10000

/-- Modelled from the spec: `MOEAD::DecomposedSingleObjective(weights,
idealPoint, evaluatedCandidate)` (declared at moead.hpp lines 148-150, body
in the missing `moead_impl.hpp`).  Per spec 4.2 it is the weighted
Tchebycheff value: the maximum over objectives `j` of
`weights[j] * |evaluatedCandidate[j] - idealPoint[j]|`, with
`moeadEpsilon` substituted for any zero weight component. -/
def DecomposedSingleObjective (weights idealPoint evaluatedCandidate : List ℚ) : ℚ :=
  (((List.range weights.length).map fun j =>
      (if weights.getD j 0 = 0 then moeadEpsilon else weights.getD j 0) *
        |evaluatedCandidate.getD j 0 - idealPoint.getD j 0|).maximum).unbot' 0

/-- Modelled from the spec: the ideal-point update performed after each
child evaluation (spec 4.5 step 3, body in the missing `moead_impl.hpp`):
the componentwise minimum of the current ideal point and the child's
objective vector. -/
def updateIdealPoint (idealPoint childObjective : List ℚ) : List ℚ :=
  List.zipWith min idealPoint childObjective

/-- Modelled from the spec: the archive maintainer step (spec 4.6, body in
the missing `moead_impl.hpp`) folding one evaluated candidate into the best
front: members dominated by the candidate are removed, and the candidate is
inserted unless some remaining member dominates it. -/
def insertIntoFront {α : Type} [LE α] [LT α]
    [DecidableRel ((· ≤ ·) : α → α → Prop)] [DecidableRel ((· < ·) : α → α → Prop)]
    (front : List (List α)) (candidate : List α) : List (List α) :=
  let pruned := front.filter fun member => !(Dominates candidate member)
  if pruned.any fun member => Dominates member candidate then pruned
  else pruned ++ [candidate]

/-- A front is mutually non-dominated when no entry dominates another
(in either direction), as required of `bestFront` (moead.hpp line 228). -/
def MutuallyNonDominated {α : Type} [LE α] [LT α]
    [DecidableRel ((· ≤ ·) : α → α → Prop)] [DecidableRel ((· < ·) : α → α → Prop)]
    (front : List (List α)) : Prop :=
  List.Pairwise (fun a b => Dominates a b = false ∧ Dominates b a = false) front

/-- One population member: a decision vector paired with its evaluated
objective vector (spec section 3, Population). -/
structure Individual where
  decision : List ℚ
  objective : List ℚ
deriving DecidableEq, Repr, Inhabited

/-- Modelled from the spec: one neighbour-replacement test of the
generation step (spec 4.5 step 4, body in the missing `moead_impl.hpp`): if
the child's decomposed value for weight `j` is less than or equal to the
current member's, population member `j` is replaced by the child. -/
def updateNeighbourOnce (weights : List (List ℚ)) (idealPoint : List ℚ)
    (child : Individual) (population : List Individual) (j : ℕ) : List Individual :=
  if DecomposedSingleObjective (weights.getD j []) idealPoint child.objective ≤
      DecomposedSingleObjective (weights.getD j []) idealPoint
        ((population.getD j default).objective)
  then population.set j child
  else population

/-- Modelled from the spec: the replacement loop of the generation step
(spec 4.5 step 4): visit every subproblem `j` of the neighbourhood in
neighbourhood order and apply the replacement test. -/
def replaceNeighbours (weights : List (List ℚ)) (idealPoint : List ℚ)
    (child : Individual) (neighbourhood : List ℕ)
    (population : List Individual) : List Individual :=
  neighbourhood.foldl (updateNeighbourOnce weights idealPoint child) population

/-- Componentwise clamp of a value into the interval given by a lower and
an upper bound. -/
def clampToBounds (value low high : ℚ) : ℚ := min (max value low) high

/-- Modelled from the spec: `MOEAD::Mutate(child, lowerBound, upperBound)`
(declared at moead.hpp lines 134-137, body in the missing
`moead_impl.hpp`).  Per spec 4.4, each component is independently perturbed
with some probability by a random offset scaled by `mutationStrength`, and
the result is clamped to `[lowerBound, upperBound]` componentwise.  The
randomness realisation is passed in explicitly: `flips j` says whether
component `j` was selected for perturbation and `offsets j` is the raw
random offset for component `j`. -/
def Mutate (child : List ℚ) (mutationStrength : ℚ)
    (flips : ℕ → Bool) (offsets : ℕ → ℚ)
    (lowerBound upperBound : List ℚ) : List ℚ :=
  (List.range child.length).map fun j =>
    clampToBounds
      (child.getD j 0 + (if flips j then mutationStrength * offsets j else 0))
      (lowerBound.getD j 0) (upperBound.getD j 0)

/-- Squared Euclidean distance between two weight vectors.  Sorting by the
squared distance orders exactly as sorting by the Euclidean distance, since
the square root is monotone; the squared form keeps everything rational. -/
def sqDistance (a b : List ℚ) : ℚ :=
  (List.zipWith (fun x y => (x - y) ^ 2) a b).sum

/-- Comparison used to sort (distance, index) pairs: ascending distance
with ties broken by ascending index (spec 4.1: sort distances ascending,
ties broken by index order). -/
def lexLess (p q : ℚ × ℕ) : Bool :=
  decide (p.1 < q.1 ∨ (p.1 = q.1 ∧ p.2 ≤ q.2))

/-- Modelled from the spec: the neighbourhood list of subproblem `i`
(spec 4.1, body in the missing `moead_impl.hpp`): compute the distances
from weight vector `i` to all weight vectors, sort ascending with ties
broken by index order, and retain the closest
`min neighbourhoodSize populationSize` indices (the neighbourhood size is
clamped to the population size). -/
def weightNeighbourIndices (weights : List (List ℚ))
    (neighbourhoodSize : ℕ) (i : ℕ) : List ℕ :=
  ((((List.range weights.length).map fun j =>
      (sqDistance (weights.getD i []) (weights.getD j []), j)).mergeSort
        lexLess).take (min neighbourhoodSize weights.length)).map Prod.snd

/-- The configuration state of the `MOEAD` class: the private members
declared at moead.hpp lines 203-222 that the constructor initialises. -/
structure MOEAD where
  populationSize : ℕ
  crossoverProb : ℚ
  mutationProb : ℚ
  mutationStrength : ℚ
  neighbourhoodSize : ℕ
  lowerBound : List ℚ
  upperBound : List ℚ
deriving DecidableEq, Repr

/-- The default-constructed optimizer, from the constructor default
arguments at moead.hpp lines 65-71: populationSize 100, crossoverProb 0.6,
mutationProb 0.3, mutationStrength 1e-3, neighbourhoodSize 50, and both
bounds `arma::ones(1, 1)`, i.e. the length-1 all-ones vector. -/
def MOEAD.default : MOEAD :=
  { populationSize := 100
    crossoverProb := 6 / 10
    mutationProb := 3 / 10
    mutationStrength := 1 / 1000
    neighbourhoodSize := 50
    lowerBound := [1]
    upperBound := [1] }

/-- Getter `MOEAD::PopulationSize() const` (moead.hpp line 91). -/
def MOEAD.PopulationSize (o : MOEAD) : ℕ := o.populationSize

/-- The mutable accessor `MOEAD::PopulationSize()` (moead.hpp line 93)
returns a reference to the member; writing through it is modelled as a
functional update. -/
def MOEAD.setPopulationSize (o : MOEAD) (v : ℕ) : MOEAD :=
  { o with populationSize := v }

/-- Getter `MOEAD::CrossoverRate() const` (moead.hpp line 96). -/
def MOEAD.CrossoverRate (o : MOEAD) : ℚ := o.crossoverProb

/-- Write through the mutable accessor `MOEAD::CrossoverRate()`
(moead.hpp line 98). -/
def MOEAD.setCrossoverRate (o : MOEAD) (v : ℚ) : MOEAD :=
  { o with crossoverProb := v }

/-- Getter `MOEAD::MutationProbability() const` (moead.hpp line 101). -/
def MOEAD.MutationProbability (o : MOEAD) : ℚ := o.mutationProb

/-- Write through the mutable accessor `MOEAD::MutationProbability()`
(moead.hpp line 103). -/
def MOEAD.setMutationProbability (o : MOEAD) (v : ℚ) : MOEAD :=
  { o with mutationProb := v }

/-- Getter `MOEAD::NeighbourhoodSize() const` (moead.hpp line 106). -/
def MOEAD.NeighbourhoodSize (o : MOEAD) : ℕ := o.neighbourhoodSize

/-- Write through the mutable accessor `MOEAD::NeighbourhoodSize()`
(moead.hpp line 108). -/
def MOEAD.setNeighbourhoodSize (o : MOEAD) (v : ℕ) : MOEAD :=
  { o with neighbourhoodSize := v }

/-- Getter `MOEAD::LowerBound() const` (moead.hpp line 111). -/
def MOEAD.LowerBound (o : MOEAD) : List ℚ := o.lowerBound

/-- Write through the mutable accessor `MOEAD::LowerBound()`
(moead.hpp line 113). -/
def MOEAD.setLowerBound (o : MOEAD) (v : List ℚ) : MOEAD :=
  { o with lowerBound := v }

/-- Getter `MOEAD::UpperBound() const` (moead.hpp line 116). -/
def MOEAD.UpperBound (o : MOEAD) : List ℚ := o.upperBound

/-- Write through the mutable accessor `MOEAD::UpperBound()`
(moead.hpp line 118). -/
def MOEAD.setUpperBound (o : MOEAD) (v : List ℚ) : MOEAD :=
  { o with upperBound := v }

/-- The recognized configuration options of the optimizer (spec section 6;
exactly the constructor parameters at moead.hpp lines 65-71). -/
inductive ConfigOption where
  | populationSize
  | crossoverProb
  | mutationProb
  | mutationStrength
  | neighbourhoodSize
  | lowerBound
  | upperBound
deriving DecidableEq, Repr

/-- All seven recognized configuration options, in constructor order
(moead.hpp lines 65-71). -/
def recognizedOptions : List ConfigOption :=
  [ConfigOption.populationSize, ConfigOption.crossoverProb, ConfigOption.mutationProb,
   ConfigOption.mutationStrength, ConfigOption.neighbourhoodSize,
   ConfigOption.lowerBound, ConfigOption.upperBound]

/-- The options for which the class declares an accessor pair
(moead.hpp lines 90-118): PopulationSize, CrossoverRate,
MutationProbability, NeighbourhoodSize, LowerBound, UpperBound.  The
header declares no accessor for `mutationStrength` (the member at line 213
is private and unexposed). -/
def accessorOptions : List ConfigOption :=
  [ConfigOption.populationSize, ConfigOption.crossoverProb, ConfigOption.mutationProb,
   ConfigOption.neighbourhoodSize, ConfigOption.lowerBound, ConfigOption.upperBound]

/-- Modelled from the spec: a length-1 bound vector is broadcast to the
decision-vector length (spec section 6); other lengths are kept as-is. -/
def broadcastBound (bound : List ℚ) (n : ℕ) : List ℚ :=
  if bound.length = 1 then List.replicate n (bound.getD 0 0) else bound

/-- Characterisation of `Dominates` over any componentwise order:
it is true exactly when every component of `a` is `≤` the matching
component of `b` and some component is strictly `<`. -/
theorem dominates_char {α : Type} [LE α] [LT α]
    [DecidableRel ((· ≤ ·) : α → α → Prop)] [DecidableRel ((· < ·) : α → α → Prop)]
    (a b : List α) (d : α) (hlen : a.length = b.length) :
    Dominates a b = true ↔
      ((∀ j, j < a.length → a.getD j d ≤ b.getD j d) ∧
       (∃ j, j < a.length ∧ a.getD j d < b.getD j d)) := by
  have hzlen : (a.zip b).length = a.length := by
    rw [List.length_zip, hlen, min_self]
  rw [Dominates, Bool.and_eq_true, List.all_eq_true, List.any_eq_true]
  have hmem : ∀ j (hj : j < a.length),
      (a.getD j d, b.getD j d) ∈ a.zip b := by
    intro j hj
    have hj' : j < (a.zip b).length := by omega
    have hjb : j < b.length := by omega
    have := List.getElem_mem hj'
    rwa [List.getElem_zip, ← List.getD_eq_getElem a d hj,
      ← List.getD_eq_getElem b d hjb] at this
  constructor
  · rintro ⟨hall, ⟨p, hp, hlt⟩⟩
    refine ⟨?_, ?_⟩
    · intro j hj
      have := hall _ (hmem j hj)
      simpa using this
    · obtain ⟨j, hj, hpj⟩ := List.mem_iff_getElem.mp hp
      have hja : j < a.length := by omega
      have hjb : j < b.length := by omega
      refine ⟨j, hja, ?_⟩
      rw [List.getElem_zip] at hpj
      rw [List.getD_eq_getElem a d hja, List.getD_eq_getElem b d hjb]
      rw [← hpj] at hlt
      simpa using hlt
  · rintro ⟨hall, ⟨j, hj, hlt⟩⟩
    refine ⟨?_, ⟨_, hmem j hj, by simpa using hlt⟩⟩
    intro p hp
    obtain ⟨i, hi, hpi⟩ := List.mem_iff_getElem.mp hp
    have hia : i < a.length := by omega
    have hib : i < b.length := by omega
    rw [List.getElem_zip] at hpi
    have := hall i hia
    rw [List.getD_eq_getElem a d hia, List.getD_eq_getElem b d hib] at this
    rw [← hpi]
    simpa using this

/-- One ideal-point update takes the componentwise minimum, so no
component increases. -/
theorem ideal_step_le (z f : List ℚ) (hlen : f.length = z.length)
    (j : ℕ) (hj : j < z.length) :
    (updateIdealPoint z f).getD j 0 = min (z.getD j 0) (f.getD j 0) ∧
    (updateIdealPoint z f).getD j 0 ≤ z.getD j 0 := by
  have hlz : (updateIdealPoint z f).length = z.length := by
    simp [updateIdealPoint, hlen]
  have hjf : j < f.length := by omega
  have h1 : (updateIdealPoint z f).getD j 0 = min (z.getD j 0) (f.getD j 0) := by
    rw [List.getD_eq_getElem _ _ (by omega : j < (updateIdealPoint z f).length),
      List.getD_eq_getElem _ _ hj, List.getD_eq_getElem _ _ hjf]
    simp [updateIdealPoint]
  exact ⟨h1, by rw [h1]; exact min_le_left _ _⟩

/-- Folding any sequence of ideal-point updates never increases a
component, and preserves the ideal point's length. -/
theorem ideal_fold_le (z : List ℚ) (fs : List (List ℚ))
    (hlen : ∀ f ∈ fs, f.length = z.length) (j : ℕ) (hj : j < z.length) :
    (fs.foldl updateIdealPoint z).getD j 0 ≤ z.getD j 0 ∧
    (fs.foldl updateIdealPoint z).length = z.length := by
  induction fs generalizing z with
  | nil => exact ⟨le_refl _, rfl⟩
  | cons f rest ih =>
    have hf : f.length = z.length := hlen f (List.mem_cons_self _ _)
    have hlz : (updateIdealPoint z f).length = z.length := by
      simp [updateIdealPoint, hf]
    have hrest : ∀ g ∈ rest, g.length = (updateIdealPoint z f).length := by
      intro g hg; rw [hlz]; exact hlen g (List.mem_cons_of_mem _ hg)
    have := ih (updateIdealPoint z f) hrest (by omega)
    refine ⟨le_trans this.1 ?_, by rw [List.foldl_cons]; rw [this.2, hlz]⟩
    exact (ideal_step_le z f hf j hj).2

/-- Folding one candidate into a mutually non-dominated front keeps it
mutually non-dominated. -/
theorem insert_preserves_nondominated {α : Type} [LE α] [LT α]
    [DecidableRel ((· ≤ ·) : α → α → Prop)] [DecidableRel ((· < ·) : α → α → Prop)]
    (front : List (List α)) (c : List α) (h : MutuallyNonDominated front) :
    MutuallyNonDominated (insertIntoFront front c) := by
  rw [insertIntoFront]
  set pruned := front.filter fun member => !(Dominates c member) with hpruned
  have hpr : MutuallyNonDominated pruned := List.Pairwise.filter _ h
  by_cases hany : (pruned.any fun member => Dominates member c) = true
  · simpa [hany] using hpr
  · have hany' : ∀ m ∈ pruned, Dominates m c = false := by
      intro m hm
      by_contra hne
      exact hany (List.any_eq_true.mpr ⟨m, hm, by revert hne; cases Dominates m c <;> simp⟩)
    rw [Bool.not_eq_true] at hany
    rw [hany, if_neg (by simp)]
    rw [MutuallyNonDominated, List.pairwise_append]
    refine ⟨hpr, List.pairwise_singleton _ _, ?_⟩
    intro m hm c' hc'
    rw [List.mem_singleton] at hc'
    subst hc'
    refine ⟨hany' m hm, ?_⟩
    have := (List.mem_filter.mp hm).2
    simpa using this

/-- Folding any stream of candidates into a mutually non-dominated front
keeps it mutually non-dominated at every step. -/
theorem fold_preserves_nondominated {α : Type} [LE α] [LT α]
    [DecidableRel ((· ≤ ·) : α → α → Prop)] [DecidableRel ((· < ·) : α → α → Prop)]
    (front : List (List α)) (cands : List (List α)) (h : MutuallyNonDominated front) :
    MutuallyNonDominated (cands.foldl insertIntoFront front) := by
  induction cands generalizing front with
  | nil => exact h
  | cons c rest ih => exact ih _ (insert_preserves_nondominated front c h)

/-- A single neighbour-replacement test preserves the population size. -/
theorem updateNeighbourOnce_length (weights : List (List ℚ)) (z : List ℚ)
    (child : Individual) (pop : List Individual) (j : ℕ) :
    (updateNeighbourOnce weights z child pop j).length = pop.length := by
  rw [updateNeighbourOnce]
  split <;> simp

/-- A single neighbour-replacement test at subproblem `j` leaves every
other population slot unchanged. -/
theorem updateNeighbourOnce_getD_ne (weights : List (List ℚ)) (z : List ℚ)
    (child : Individual) (pop : List Individual) (j i : ℕ) (hij : i ≠ j) :
    (updateNeighbourOnce weights z child pop j).getD i default =
      pop.getD i default := by
  rw [updateNeighbourOnce]
  split
  · rw [List.getD_eq_getElem?_getD, List.getD_eq_getElem?_getD,
      List.getElem?_set_ne (Ne.symm hij)]
  · rfl

/-- The replacement loop leaves population slots outside the neighbourhood
unchanged. -/
theorem replaceNeighbours_getD_notMem (weights : List (List ℚ)) (z : List ℚ)
    (child : Individual) (nbhd : List ℕ) (pop : List Individual) (i : ℕ)
    (hi : i ∉ nbhd) :
    (replaceNeighbours weights z child nbhd pop).getD i default =
      pop.getD i default := by
  induction nbhd generalizing pop with
  | nil => rfl
  | cons j rest ih =>
    rw [replaceNeighbours, List.foldl_cons]
    have hij : i ≠ j := fun h => hi (h ▸ List.mem_cons_self _ _)
    have hirest : i ∉ rest := fun h => hi (List.mem_cons_of_mem _ h)
    rw [← replaceNeighbours]
    rw [ih _ hirest, updateNeighbourOnce_getD_ne _ _ _ _ _ _ hij]

/-- The replacement loop preserves the population size. -/
theorem replaceNeighbours_length (weights : List (List ℚ)) (z : List ℚ)
    (child : Individual) (nbhd : List ℕ) (pop : List Individual) :
    (replaceNeighbours weights z child nbhd pop).length = pop.length := by
  induction nbhd generalizing pop with
  | nil => rfl
  | cons j rest ih =>
    rw [replaceNeighbours, List.foldl_cons, ← replaceNeighbours, ih,
      updateNeighbourOnce_length]

/-- On a duplicate-free neighbourhood, each visited slot `j` ends up
holding the child exactly when the child's decomposed value for weight `j`
is less than or equal to that of the original member (replacement also on
exact equality). -/
theorem replaceNeighbours_char (weights : List (List ℚ)) (z : List ℚ)
    (child : Individual) (nbhd : List ℕ) (pop : List Individual)
    (hnodup : nbhd.Nodup) (hrange : ∀ j ∈ nbhd, j < pop.length) :
    ∀ j ∈ nbhd,
      (replaceNeighbours weights z child nbhd pop).getD j default =
        (if DecomposedSingleObjective (weights.getD j []) z child.objective ≤
            DecomposedSingleObjective (weights.getD j []) z
              ((pop.getD j default).objective)
         then child else pop.getD j default) := by
  induction nbhd generalizing pop with
  | nil => intro j hj; exact absurd hj (List.not_mem_nil _)
  | cons j0 rest ih =>
    intro j hj
    rw [replaceNeighbours, List.foldl_cons, ← replaceNeighbours]
    rcases List.mem_cons.mp hj with hj0 | hjrest
    · subst hj0
      have hjnotrest : j ∉ rest := (List.nodup_cons.mp hnodup).1
      rw [replaceNeighbours_getD_notMem _ _ _ _ _ _ hjnotrest]
      rw [updateNeighbourOnce]
      split
      · rw [List.getD_eq_getElem?_getD, List.getElem?_set_self
          (hrange j (List.mem_cons_self _ _))]
        rfl
      · rfl
    · have hj0j : j0 ≠ j := by
        intro h
        subst h
        exact (List.nodup_cons.mp hnodup).1 hjrest
      have := ih (updateNeighbourOnce weights z child pop j0)
        (List.nodup_cons.mp hnodup).2
        (fun m hm => by
          rw [updateNeighbourOnce_length]
          exact hrange m (List.mem_cons_of_mem _ hm))
        j hjrest
      rw [this, updateNeighbourOnce_getD_ne _ _ _ _ _ _ (Ne.symm hj0j)]

/-- A vector containing a NaN component never dominates anything: the
componentwise `≤` check already fails at the NaN position. -/
theorem nan_never_dominates (a b : List FpVal) (hlen : a.length = b.length)
    (hnan : FpVal.nan ∈ a) : Dominates a b = false := by
  rw [Bool.eq_false_iff]
  intro h
  rw [Dominates, Bool.and_eq_true, List.all_eq_true] at h
  obtain ⟨j, hj, hja⟩ := List.mem_iff_getElem.mp hnan
  have hjz : j < (a.zip b).length := by
    rw [List.length_zip, hlen, min_self]; omega
  have := h.1 _ (List.getElem_mem hjz)
  rw [List.getElem_zip] at this
  rw [hja] at this
  simp only [decide_eq_true_eq] at this
  have : FpVal.fle FpVal.nan b[j] = true := this
  cases hb : b[j] <;> rw [hb] at this <;> simp [FpVal.fle] at this

/-- A candidate with a NaN component removes no member when folded into the
front: every existing member survives the update. -/
theorem nan_candidate_displaces_nothing (front : List (List FpVal)) (c : List FpVal)
    (hnan : FpVal.nan ∈ c) (hlen : ∀ m ∈ front, m.length = c.length) :
    ∀ m ∈ front, m ∈ insertIntoFront front c := by
  intro m hm
  have hfull : (front.filter fun member => !(Dominates c member)) = front := by
    rw [List.filter_eq_self]
    intro x hx
    rw [nan_never_dominates c x (hlen x hx).symm hnan]
    rfl
  rw [insertIntoFront]
  simp only [hfull]
  split
  · exact hm
  · exact List.mem_append_left _ hm

/-- The (distance, index) comparison is transitive. -/
theorem lexLess_trans (a b c : ℚ × ℕ) (hab : lexLess a b = true)
    (hbc : lexLess b c = true) : lexLess a c = true := by
  rw [lexLess, decide_eq_true_eq] at *
  rcases hab with h1 | ⟨h1, h1'⟩ <;> rcases hbc with h2 | ⟨h2, h2'⟩
  · exact Or.inl (lt_trans h1 h2)
  · exact Or.inl (h2 ▸ h1)
  · exact Or.inl (h1 ▸ h2)
  · exact Or.inr ⟨h1.trans h2, h1'.trans h2'⟩

/-- The (distance, index) comparison is total. -/
theorem lexLess_total (a b : ℚ × ℕ) : (lexLess a b || lexLess b a) = true := by
  rw [lexLess, lexLess, Bool.or_eq_true, decide_eq_true_eq, decide_eq_true_eq]
  rcases lt_trichotomy a.1 b.1 with h | h | h
  · exact Or.inl (Or.inl h)
  · rcases Nat.le_total a.2 b.2 with h' | h'
    · exact Or.inl (Or.inr ⟨h, h'⟩)
    · exact Or.inr (Or.inr ⟨h.symm, h'⟩)
  · exact Or.inr (Or.inl h)

/-- Squared distances are non-negative. -/
theorem sqDistance_nonneg (a b : List ℚ) : 0 ≤ sqDistance a b := by
  apply List.sum_nonneg
  intro x hx
  obtain ⟨p, hp, hpx⟩ := List.mem_iff_getElem.mp hx
  rw [List.getElem_zipWith] at hpx
  rw [← hpx]
  positivity

/-- The squared distance from a vector to itself is zero. -/
theorem sqDistance_self (a : List ℚ) : sqDistance a a = 0 := by
  induction a with
  | nil => rfl
  | cons x xs ih =>
    rw [sqDistance, List.zipWith_cons_cons, List.sum_cons, ← sqDistance, ih]
    ring

/-- Two equal-length vectors at squared distance zero are equal. -/
theorem sqDistance_eq_zero (a b : List ℚ) (hlen : a.length = b.length)
    (h : sqDistance a b = 0) : a = b := by
  induction a generalizing b with
  | nil =>
    cases b with
    | nil => rfl
    | cons y ys => simp at hlen
  | cons x xs ih =>
    cases b with
    | nil => simp at hlen
    | cons y ys =>
      simp only [List.length_cons, Nat.succ.injEq] at hlen
      rw [sqDistance, List.zipWith_cons_cons, List.sum_cons, ← sqDistance] at h
      have h1 : (0:ℚ) ≤ (x - y) ^ 2 := by positivity
      have h2 : (0:ℚ) ≤ sqDistance xs ys := sqDistance_nonneg xs ys
      have hx : (x - y) ^ 2 = 0 ∧ sqDistance xs ys = 0 := by
        constructor <;> nlinarith
      have hxy : x = y := by
        have := pow_eq_zero_iff (n := 2) (by norm_num) |>.mp hx.1
        linarith [sub_eq_zero.mp this]
      rw [hxy, ih ys hlen hx.2]

/-- C1: for every weight vector, ideal point and objective vector of a
common positive length, `DecomposedSingleObjective` returns the maximum
over objectives `j` of `w'[j] * |f[j] - z[j]|`, where `w'[j]` substitutes
the fixed epsilon for zero weight components: each term is bounded by the
returned value and the returned value is attained by some term.  The
function is pure, so two calls with identical inputs return identical
values (last conjunct). -/
theorem decomposed_tchebycheff (weights idealPoint evaluatedCandidate : List ℚ)
    (hk : 0 < weights.length) :
    (∀ j, j < weights.length →
      (if weights.getD j 0 = 0 then moeadEpsilon else weights.getD j 0) *
        |evaluatedCandidate.getD j 0 - idealPoint.getD j 0| ≤
      DecomposedSingleObjective weights idealPoint evaluatedCandidate) ∧
    (∃ j, j < weights.length ∧
      DecomposedSingleObjective weights idealPoint evaluatedCandidate =
      (if weights.getD j 0 = 0 then moeadEpsilon else weights.getD j 0) *
        |evaluatedCandidate.getD j 0 - idealPoint.getD j 0|) ∧
    DecomposedSingleObjective weights idealPoint evaluatedCandidate =
      DecomposedSingleObjective weights idealPoint evaluatedCandidate := by
  set terms := (List.range weights.length).map fun j =>
      (if weights.getD j 0 = 0 then moeadEpsilon else weights.getD j 0) *
        |evaluatedCandidate.getD j 0 - idealPoint.getD j 0| with hterms
  have hne : terms ≠ [] := by
    simp only [hterms, ne_eq, List.map_eq_nil_iff, List.range_eq_nil]
    omega
  obtain ⟨m, hm⟩ : ∃ m : ℚ, terms.maximum = (m : WithBot ℚ) := by
    cases hmax : terms.maximum with
    | bot => exact absurd (List.maximum_eq_bot.mp hmax) hne
    | coe m => exact ⟨m, rfl⟩
  obtain ⟨hmem, hle⟩ := List.maximum_eq_coe_iff.mp hm
  have hval : DecomposedSingleObjective weights idealPoint evaluatedCandidate = m := by
    rw [DecomposedSingleObjective, ← hterms, hm]
    rfl
  refine ⟨?_, ?_, rfl⟩
  · intro j hj
    rw [hval]
    apply hle
    rw [hterms]
    exact List.mem_map_of_mem _ (List.mem_range.mpr hj)
  · rw [hterms] at hmem
    obtain ⟨j, hj, hjm⟩ := List.mem_map.mp hmem
    exact ⟨j, List.mem_range.mp hj, by rw [hval, hjm]⟩

/-- Witness for C1 at weights [0, 2], ideal point [0, 0], objectives
[1, 3]. -/
theorem decomposed_tchebycheff_witness :
    0 < ([(0:ℚ), 2] : List ℚ).length ∧
    ((∀ j, j < ([(0:ℚ), 2] : List ℚ).length →
      (if ([(0:ℚ), 2] : List ℚ).getD j 0 = 0 then moeadEpsilon
        else ([(0:ℚ), 2] : List ℚ).getD j 0) *
        |([(1:ℚ), 3] : List ℚ).getD j 0 - ([(0:ℚ), 0] : List ℚ).getD j 0| ≤
      DecomposedSingleObjective [(0:ℚ), 2] [(0:ℚ), 0] [(1:ℚ), 3]) ∧
    (∃ j, j < ([(0:ℚ), 2] : List ℚ).length ∧
      DecomposedSingleObjective [(0:ℚ), 2] [(0:ℚ), 0] [(1:ℚ), 3] =
      (if ([(0:ℚ), 2] : List ℚ).getD j 0 = 0 then moeadEpsilon
        else ([(0:ℚ), 2] : List ℚ).getD j 0) *
        |([(1:ℚ), 3] : List ℚ).getD j 0 - ([(0:ℚ), 0] : List ℚ).getD j 0|) ∧
    DecomposedSingleObjective [(0:ℚ), 2] [(0:ℚ), 0] [(1:ℚ), 3] =
      DecomposedSingleObjective [(0:ℚ), 2] [(0:ℚ), 0] [(1:ℚ), 3]) :=
  ⟨by decide, decomposed_tchebycheff [(0:ℚ), 2] [(0:ℚ), 0] [(1:ℚ), 3] (by decide)⟩

/-- C2: on equal-length objective vectors, `Dominates a b` is true iff
every component of `a` is `≤` the matching component of `b` and some
component is strictly smaller (Pareto dominance, minimization
convention). -/
theorem dominates_pareto (a b : List ℚ) (hlen : a.length = b.length) :
    Dominates a b = true ↔
      ((∀ j, j < a.length → a.getD j 0 ≤ b.getD j 0) ∧
       (∃ j, j < a.length ∧ a.getD j 0 < b.getD j 0)) :=
  dominates_char a b 0 hlen

/-- Witness for C2 at a = [1, 2], b = [1, 3]. -/
theorem dominates_pareto_witness :
    ([(1:ℚ), 2] : List ℚ).length = ([(1:ℚ), 3] : List ℚ).length ∧
    (Dominates [(1:ℚ), 2] [(1:ℚ), 3] = true ↔
      ((∀ j, j < ([(1:ℚ), 2] : List ℚ).length →
        ([(1:ℚ), 2] : List ℚ).getD j 0 ≤ ([(1:ℚ), 3] : List ℚ).getD j 0) ∧
       (∃ j, j < ([(1:ℚ), 2] : List ℚ).length ∧
        ([(1:ℚ), 2] : List ℚ).getD j 0 < ([(1:ℚ), 3] : List ℚ).getD j 0))) :=
  ⟨by decide, dominates_pareto [(1:ℚ), 2] [(1:ℚ), 3] (by decide)⟩

/-- C3: one ideal-point update equals the componentwise minimum of the
previous ideal point and the child's objective vector, hence never
increases a component; and folding the updates of any sequence of child
evaluations (every generation is such a fold) leaves every component at
most its earlier value. -/
theorem ideal_point_nonincreasing (z f : List ℚ) (fs : List (List ℚ))
    (hf : f.length = z.length) (hfs : ∀ g ∈ fs, g.length = z.length)
    (j : ℕ) (hj : j < z.length) :
    (updateIdealPoint z f).getD j 0 = min (z.getD j 0) (f.getD j 0) ∧
    (updateIdealPoint z f).getD j 0 ≤ z.getD j 0 ∧
    (fs.foldl updateIdealPoint z).getD j 0 ≤ z.getD j 0 :=
  ⟨(ideal_step_le z f hf j hj).1, (ideal_step_le z f hf j hj).2,
   (ideal_fold_le z fs hfs j hj).1⟩

/-- Witness for C3 at ideal point [5, 7], child objectives [3, 9], then a
further generation of updates [[2, 8]], component 0. -/
theorem ideal_point_nonincreasing_witness :
    ([(3:ℚ), 9] : List ℚ).length = ([(5:ℚ), 7] : List ℚ).length ∧
    (∀ g ∈ ([[(2:ℚ), 8]] : List (List ℚ)), g.length = ([(5:ℚ), 7] : List ℚ).length) ∧
    0 < ([(5:ℚ), 7] : List ℚ).length ∧
    ((updateIdealPoint [(5:ℚ), 7] [(3:ℚ), 9]).getD 0 0 =
        min (([(5:ℚ), 7] : List ℚ).getD 0 0) (([(3:ℚ), 9] : List ℚ).getD 0 0) ∧
     (updateIdealPoint [(5:ℚ), 7] [(3:ℚ), 9]).getD 0 0 ≤
        ([(5:ℚ), 7] : List ℚ).getD 0 0 ∧
     (([[(2:ℚ), 8]] : List (List ℚ)).foldl updateIdealPoint [(5:ℚ), 7]).getD 0 0 ≤
        ([(5:ℚ), 7] : List ℚ).getD 0 0) :=
  ⟨by decide, by decide, by decide,
   ideal_point_nonincreasing [(5:ℚ), 7] [(3:ℚ), 9] [[(2:ℚ), 8]]
     (by decide) (by decide) 0 (by decide)⟩

/-- C4: starting from any mutually non-dominated front (in particular the
empty one), folding any stream of evaluated candidates through the archive
maintainer keeps the best front mutually non-dominated: no entry ever
dominates another. -/
theorem best_front_invariant (front cands : List (List ℚ))
    (h : MutuallyNonDominated front) :
    MutuallyNonDominated (cands.foldl insertIntoFront front) :=
  fold_preserves_nondominated front cands h

/-- Witness for C4: folding three candidates into the empty front. -/
theorem best_front_invariant_witness :
    MutuallyNonDominated ([] : List (List ℚ)) ∧
    MutuallyNonDominated
      (([[(1:ℚ), 2], [(2:ℚ), 1], [(3:ℚ), 3]] : List (List ℚ)).foldl
        insertIntoFront ([] : List (List ℚ))) :=
  ⟨List.Pairwise.nil,
   best_front_invariant ([] : List (List ℚ))
     [[(1:ℚ), 2], [(2:ℚ), 1], [(3:ℚ), 3]] List.Pairwise.nil⟩

/-- C5: over a duplicate-free neighbourhood of in-range subproblem
indices, the replacement loop sets slot `j` to the child exactly when the
child's decomposed value for weight `j` is less than or equal to the
original member's (so replacement also happens on exact equality); slots
outside the neighbourhood are untouched and the population size is
preserved, so nothing but the neighbourhood itself caps the number of
replacements. -/
theorem neighbour_replacement (weights : List (List ℚ)) (z : List ℚ)
    (child : Individual) (nbhd : List ℕ) (pop : List Individual)
    (hnodup : nbhd.Nodup) (hrange : ∀ j ∈ nbhd, j < pop.length) :
    (∀ j ∈ nbhd,
      (replaceNeighbours weights z child nbhd pop).getD j default =
        (if DecomposedSingleObjective (weights.getD j []) z child.objective ≤
            DecomposedSingleObjective (weights.getD j []) z
              ((pop.getD j default).objective)
         then child else pop.getD j default)) ∧
    (∀ i, i ∉ nbhd →
      (replaceNeighbours weights z child nbhd pop).getD i default =
        pop.getD i default) ∧
    (replaceNeighbours weights z child nbhd pop).length = pop.length :=
  ⟨replaceNeighbours_char weights z child nbhd pop hnodup hrange,
   fun i hi => replaceNeighbours_getD_notMem weights z child nbhd pop i hi,
   replaceNeighbours_length weights z child nbhd pop⟩

/-- Witness for C5: weights [[1], [2]], ideal point [0], a child with
objective [1], neighbourhood [0, 1], and a two-member population. -/
theorem neighbour_replacement_witness :
    ([0, 1] : List ℕ).Nodup ∧
    (∀ j ∈ ([0, 1] : List ℕ),
      j < ([⟨[5], [5]⟩, ⟨[0], [0]⟩] : List Individual).length) ∧
    ((∀ j ∈ ([0, 1] : List ℕ),
      (replaceNeighbours [[(1:ℚ)], [2]] [(0:ℚ)] ⟨[1], [1]⟩ [0, 1]
          [⟨[5], [5]⟩, ⟨[0], [0]⟩]).getD j default =
        (if DecomposedSingleObjective (([[(1:ℚ)], [2]] : List (List ℚ)).getD j [])
              [(0:ℚ)] (Individual.mk [1] [1]).objective ≤
            DecomposedSingleObjective (([[(1:ℚ)], [2]] : List (List ℚ)).getD j [])
              [(0:ℚ)]
              ((([⟨[5], [5]⟩, ⟨[0], [0]⟩] : List Individual).getD j default).objective)
         then Individual.mk [1] [1]
         else ([⟨[5], [5]⟩, ⟨[0], [0]⟩] : List Individual).getD j default)) ∧
    (∀ i, i ∉ ([0, 1] : List ℕ) →
      (replaceNeighbours [[(1:ℚ)], [2]] [(0:ℚ)] ⟨[1], [1]⟩ [0, 1]
          [⟨[5], [5]⟩, ⟨[0], [0]⟩]).getD i default =
        ([⟨[5], [5]⟩, ⟨[0], [0]⟩] : List Individual).getD i default) ∧
    (replaceNeighbours [[(1:ℚ)], [2]] [(0:ℚ)] ⟨[1], [1]⟩ [0, 1]
        [⟨[5], [5]⟩, ⟨[0], [0]⟩]).length =
      ([⟨[5], [5]⟩, ⟨[0], [0]⟩] : List Individual).length) :=
  ⟨by decide, by decide,
   neighbour_replacement [[(1:ℚ)], [2]] [(0:ℚ)] ⟨[1], [1]⟩ [0, 1]
     [⟨[5], [5]⟩, ⟨[0], [0]⟩] (by decide) (by decide)⟩

/-- C6: for every child, every bound pair that is componentwise ordered on
the child's components, and every realisation of the randomness, the
mutated vector keeps the child's length and satisfies
`lowerBound[j] ≤ result[j] ≤ upperBound[j]` for every component `j`. -/
theorem mutate_in_bounds (child : List ℚ) (mutationStrength : ℚ)
    (flips : ℕ → Bool) (offsets : ℕ → ℚ) (lowerBound upperBound : List ℚ)
    (hord : ∀ j, j < child.length → lowerBound.getD j 0 ≤ upperBound.getD j 0) :
    (Mutate child mutationStrength flips offsets lowerBound upperBound).length =
      child.length ∧
    ∀ j, j < child.length →
      lowerBound.getD j 0 ≤
        (Mutate child mutationStrength flips offsets lowerBound upperBound).getD j 0 ∧
      (Mutate child mutationStrength flips offsets lowerBound upperBound).getD j 0 ≤
        upperBound.getD j 0 := by
  have hlen : (Mutate child mutationStrength flips offsets lowerBound upperBound).length =
      child.length := by
    simp [Mutate]
  refine ⟨hlen, ?_⟩
  intro j hj
  have hval : (Mutate child mutationStrength flips offsets lowerBound upperBound).getD j 0 =
      clampToBounds
        (child.getD j 0 + (if flips j then mutationStrength * offsets j else 0))
        (lowerBound.getD j 0) (upperBound.getD j 0) := by
    rw [List.getD_eq_getElem _ _ (by omega : j < (Mutate child mutationStrength flips
      offsets lowerBound upperBound).length)]
    simp only [Mutate, List.getElem_map, List.getElem_range]
  rw [hval, clampToBounds]
  exact ⟨le_min (le_max_right _ _) (hord j hj), min_le_right _ _⟩

/-- Witness for C6: child [5, -3], strength 1, every component flipped
with offset 10, bounds [0, 0] and [1, 2]. -/
theorem mutate_in_bounds_witness :
    (∀ j, j < ([(5:ℚ), -3] : List ℚ).length →
      ([(0:ℚ), 0] : List ℚ).getD j 0 ≤ ([(1:ℚ), 2] : List ℚ).getD j 0) ∧
    ((Mutate [(5:ℚ), -3] 1 (fun _ => true) (fun _ => 10)
        [(0:ℚ), 0] [(1:ℚ), 2]).length = ([(5:ℚ), -3] : List ℚ).length ∧
    ∀ j, j < ([(5:ℚ), -3] : List ℚ).length →
      ([(0:ℚ), 0] : List ℚ).getD j 0 ≤
        (Mutate [(5:ℚ), -3] 1 (fun _ => true) (fun _ => 10)
          [(0:ℚ), 0] [(1:ℚ), 2]).getD j 0 ∧
      (Mutate [(5:ℚ), -3] 1 (fun _ => true) (fun _ => 10)
          [(0:ℚ), 0] [(1:ℚ), 2]).getD j 0 ≤
        ([(1:ℚ), 2] : List ℚ).getD j 0) :=
  ⟨by decide,
   mutate_in_bounds [(5:ℚ), -3] 1 (fun _ => true) (fun _ => 10)
     [(0:ℚ), 0] [(1:ℚ), 2] (by decide)⟩

/-- C7 counterexample: with the duplicated weight vectors [[1], [1]] and
neighbourhood size 1, subproblem 1's neighbourhood is [0]: it has the
required size min(1, 2) = 1 but does not contain subproblem 1 itself,
because the tie at distance zero is broken towards the smaller index.
This refutes the claim that the neighbourhood always includes `i`. -/
theorem neighbourhood_counterexample :
    weightNeighbourIndices [[(1:ℚ)], [1]] 1 1 = [0] ∧
    (1 : ℕ) ∉ weightNeighbourIndices [[(1:ℚ)], [1]] 1 1 := by
  have h : weightNeighbourIndices [[(1:ℚ)], [1]] 1 1 = [0] := by
    simp [weightNeighbourIndices, sqDistance, List.mergeSort, List.merge, lexLess,
      List.range_succ]
  exact ⟨h, by rw [h]; simp⟩

/-- C7 (amended): when the weight vectors share one length, are pairwise
distinct, `i` is a valid subproblem index and the neighbourhood size is at
least 1, the neighbourhood of `i` has exactly
min(neighbourhoodSize, populationSize) entries, is duplicate-free,
contains `i`, consists of subproblem indices, and is ordered by ascending
distance of the weight vectors to weight `i` with ties broken by ascending
index (sorting by squared distance orders exactly as sorting by Euclidean
distance). -/
theorem neighbourhood_char (weights : List (List ℚ)) (B i k : ℕ)
    (hk : ∀ w ∈ weights, w.length = k)
    (hnodup : weights.Nodup)
    (hi : i < weights.length)
    (hB : 1 ≤ B) :
    (weightNeighbourIndices weights B i).length = min B weights.length ∧
    (weightNeighbourIndices weights B i).Nodup ∧
    i ∈ weightNeighbourIndices weights B i ∧
    (∀ j ∈ weightNeighbourIndices weights B i, j < weights.length) ∧
    List.Pairwise (fun a b =>
      sqDistance (weights.getD i []) (weights.getD a []) <
        sqDistance (weights.getD i []) (weights.getD b []) ∨
      (sqDistance (weights.getD i []) (weights.getD a []) =
        sqDistance (weights.getD i []) (weights.getD b []) ∧ a < b))
      (weightNeighbourIndices weights B i) := by
  have hN : 0 < weights.length := by omega
  have hperm := List.mergeSort_perm ((List.range weights.length).map fun j =>
    (sqDistance (weights.getD i []) (weights.getD j []), j)) lexLess
  have hpairs_len : ((List.range weights.length).map fun j =>
      (sqDistance (weights.getD i []) (weights.getD j []), j)).length =
        weights.length := by simp
  have hsorted_len : (((List.range weights.length).map fun j =>
      (sqDistance (weights.getD i []) (weights.getD j []), j)).mergeSort
        lexLess).length = weights.length := by
    rw [List.length_mergeSort, hpairs_len]
  have hpairs_nodup : ((List.range weights.length).map fun j =>
      (sqDistance (weights.getD i []) (weights.getD j []), j)).Nodup :=
    List.Nodup.map (fun a b h => congrArg Prod.snd h) (List.nodup_range _)
  have hsorted_nodup := hperm.symm.nodup hpairs_nodup
  have hform : ∀ p ∈ ((List.range weights.length).map fun j =>
      (sqDistance (weights.getD i []) (weights.getD j []), j)).mergeSort lexLess,
      p.1 = sqDistance (weights.getD i []) (weights.getD p.2 []) ∧
        p.2 < weights.length := by
    intro p hp
    rw [hperm.mem_iff, List.mem_map] at hp
    obtain ⟨j, hj, hjp⟩ := hp
    rw [← hjp]
    exact ⟨rfl, List.mem_range.mp hj⟩
  have hsorted_pairwise := List.sorted_mergeSort lexLess_trans lexLess_total
    ((List.range weights.length).map fun j =>
      (sqDistance (weights.getD i []) (weights.getD j []), j))
  have htake_sub := List.take_sublist (min B weights.length)
    (((List.range weights.length).map fun j =>
      (sqDistance (weights.getD i []) (weights.getD j []), j)).mergeSort lexLess)
  have htake_nodup := htake_sub.nodup hsorted_nodup
  have hd0 : sqDistance (weights.getD i []) (weights.getD i []) = 0 :=
    sqDistance_self _
  have hdpos : ∀ j, j < weights.length → j ≠ i →
      0 < sqDistance (weights.getD i []) (weights.getD j []) := by
    intro j hj hji
    have hwi : weights.getD i [] = weights[i] := List.getD_eq_getElem _ _ hi
    have hwj : weights.getD j [] = weights[j] := List.getD_eq_getElem _ _ hj
    have hne : weights.getD i [] ≠ weights.getD j [] := by
      rw [hwi, hwj]
      intro h
      exact hji ((hnodup.getElem_inj_iff.mp h.symm))
    have hlen : (weights.getD i []).length = (weights.getD j []).length := by
      rw [hwi, hwj, hk _ (List.getElem_mem hi), hk _ (List.getElem_mem hj)]
    rcases lt_or_eq_of_le (sqDistance_nonneg (weights.getD i []) (weights.getD j []))
      with h | h
    · exact h
    · exact absurd (sqDistance_eq_zero _ _ hlen h.symm) hne
  constructor
  · rw [weightNeighbourIndices, List.length_map, List.length_take, hsorted_len]
    omega
  refine ⟨?_, ?_, ?_, ?_⟩
  · rw [weightNeighbourIndices]
    apply List.Nodup.map_on _ htake_nodup
    intro x hx y hy hxy
    have hxf := hform x (htake_sub.mem hx)
    have hyf := hform y (htake_sub.mem hy)
    have : x.1 = y.1 := by rw [hxf.1, hyf.1, hxy]
    exact Prod.ext this hxy
  · cases hs : ((List.range weights.length).map fun j =>
        (sqDistance (weights.getD i []) (weights.getD j []), j)).mergeSort lexLess with
    | nil =>
      rw [hs] at hsorted_len
      simp at hsorted_len
      omega
    | cons p tl =>
      have hmem0i : ((0 : ℚ), i) ∈ ((List.range weights.length).map fun j =>
          (sqDistance (weights.getD i []) (weights.getD j []), j)).mergeSort lexLess := by
        rw [hperm.mem_iff, List.mem_map]
        exact ⟨i, List.mem_range.mpr hi, by rw [hd0]⟩
      have hp : p = ((0 : ℚ), i) := by
        rw [hs] at hmem0i
        rcases List.mem_cons.mp hmem0i with h | h
        · exact h.symm
        · exfalso
          rw [hs] at hsorted_pairwise
          have hple := (List.pairwise_cons.mp hsorted_pairwise).1 _ h
          rw [lexLess, decide_eq_true_eq] at hple
          have hpf := hform p (by rw [hs]; exact List.mem_cons_self _ _)
          rcases hple with hlt | ⟨heq, hle⟩
          · have : (0:ℚ) ≤ p.1 := by rw [hpf.1]; exact sqDistance_nonneg _ _
            simp only at hlt
            linarith
          · have hpi : p.2 = i := by
              by_contra hne
              have := hdpos p.2 hpf.2 hne
              rw [← hpf.1, heq] at this
              exact lt_irrefl _ this
            have hpeq : p = ((0:ℚ), i) := by
              apply Prod.ext
              · exact heq
              · exact hpi
            rw [hs] at hsorted_nodup
            rw [hpeq] at hsorted_nodup
            exact (List.nodup_cons.mp hsorted_nodup).1 h
      rw [weightNeighbourIndices, hs]
      obtain ⟨m', hm'⟩ : ∃ m', min B weights.length = m' + 1 := by
        have : 1 ≤ min B weights.length := by omega
        exact ⟨min B weights.length - 1, by omega⟩
      rw [hm', List.take_succ_cons, List.map_cons, hp]
      exact List.mem_cons_self _ _
  · intro j hj
    rw [weightNeighbourIndices, List.mem_map] at hj
    obtain ⟨p, hp, hpj⟩ := hj
    rw [← hpj]
    exact (hform p (htake_sub.mem hp)).2
  · rw [weightNeighbourIndices]
    rw [List.pairwise_map]
    have h1 := hsorted_pairwise.sublist htake_sub
    have h2 : List.Pairwise (fun a b => a ≠ b)
        ((((List.range weights.length).map fun j =>
          (sqDistance (weights.getD i []) (weights.getD j []), j)).mergeSort
            lexLess).take (min B weights.length)) := htake_nodup
    refine List.Pairwise.imp_of_mem ?_ (h1.and h2)
    intro p q hp hq hpq
    have hpf := hform p (htake_sub.mem hp)
    have hqf := hform q (htake_sub.mem hq)
    obtain ⟨hle, hne⟩ := hpq
    rw [lexLess, decide_eq_true_eq] at hle
    rcases hle with hlt | ⟨heq, hle2⟩
    · left
      rw [← hpf.1, ← hqf.1]
      exact hlt
    · right
      have hsnd : p.2 ≠ q.2 := by
        intro h
        exact hne (Prod.ext (by rw [hpf.1, hqf.1, h]) h)
      exact ⟨by rw [← hpf.1, ← hqf.1, heq], lt_of_le_of_ne hle2 hsnd⟩

/-- Witness for C7 (amended) at weights [[0], [1]], neighbourhood size 1,
subproblem 0. -/
theorem neighbourhood_char_witness :
    (∀ w ∈ ([[(0:ℚ)], [1]] : List (List ℚ)), w.length = 1) ∧
    ([[(0:ℚ)], [1]] : List (List ℚ)).Nodup ∧
    0 < ([[(0:ℚ)], [1]] : List (List ℚ)).length ∧
    1 ≤ 1 ∧
    ((weightNeighbourIndices [[(0:ℚ)], [1]] 1 0).length =
        min 1 ([[(0:ℚ)], [1]] : List (List ℚ)).length ∧
    (weightNeighbourIndices [[(0:ℚ)], [1]] 1 0).Nodup ∧
    0 ∈ weightNeighbourIndices [[(0:ℚ)], [1]] 1 0 ∧
    (∀ j ∈ weightNeighbourIndices [[(0:ℚ)], [1]] 1 0,
      j < ([[(0:ℚ)], [1]] : List (List ℚ)).length) ∧
    List.Pairwise (fun a b =>
      sqDistance (([[(0:ℚ)], [1]] : List (List ℚ)).getD 0 [])
          (([[(0:ℚ)], [1]] : List (List ℚ)).getD a []) <
        sqDistance (([[(0:ℚ)], [1]] : List (List ℚ)).getD 0 [])
          (([[(0:ℚ)], [1]] : List (List ℚ)).getD b []) ∨
      (sqDistance (([[(0:ℚ)], [1]] : List (List ℚ)).getD 0 [])
          (([[(0:ℚ)], [1]] : List (List ℚ)).getD a []) =
        sqDistance (([[(0:ℚ)], [1]] : List (List ℚ)).getD 0 [])
          (([[(0:ℚ)], [1]] : List (List ℚ)).getD b []) ∧ a < b))
      (weightNeighbourIndices [[(0:ℚ)], [1]] 1 0)) :=
  ⟨by decide, by decide, by decide, by decide,
   neighbourhood_char [[(0:ℚ)], [1]] 1 0 1 (by decide) (by decide)
     (by decide) (by decide)⟩

/-- C8 counterexample: the vector [+inf, 0] has a non-finite component yet
dominates [+inf, 1] under IEEE comparisons, because +inf <= +inf holds and
0 < 1 is strict.  This refutes the claim that any non-finite component
(NaN or infinity) makes `Dominates` false: only NaN does. -/
theorem infinite_dominates_counterexample :
    ([FpVal.posInf, FpVal.fin 0].all FpVal.isFinite) = false ∧
    Dominates [FpVal.posInf, FpVal.fin 0] [FpVal.posInf, FpVal.fin 1] = true := by
  decide

/-- C8 (amended): a vector with a NaN component never dominates any
equal-length vector, so a candidate whose objective vector contains NaN
never displaces a front member: every existing member survives the
archive update with such a candidate. -/
theorem nan_loses_all_dominance (a b c : List FpVal) (front : List (List FpVal))
    (hab : a.length = b.length) (ha : FpVal.nan ∈ a)
    (hc : FpVal.nan ∈ c) (hfront : ∀ m ∈ front, m.length = c.length) :
    Dominates a b = false ∧ ∀ m ∈ front, m ∈ insertIntoFront front c :=
  ⟨nan_never_dominates a b hab ha, nan_candidate_displaces_nothing front c hc hfront⟩

/-- Witness for C8 (amended) at a = c = [NaN], b = [0], front = [[1]]. -/
theorem nan_loses_all_dominance_witness :
    ([FpVal.nan] : List FpVal).length = ([FpVal.fin 0] : List FpVal).length ∧
    FpVal.nan ∈ ([FpVal.nan] : List FpVal) ∧
    (∀ m ∈ ([[FpVal.fin 1]] : List (List FpVal)),
      m.length = ([FpVal.nan] : List FpVal).length) ∧
    (Dominates [FpVal.nan] [FpVal.fin 0] = false ∧
     ∀ m ∈ ([[FpVal.fin 1]] : List (List FpVal)),
       m ∈ insertIntoFront [[FpVal.fin 1]] [FpVal.nan]) :=
  ⟨by decide, by decide, by decide,
   nan_loses_all_dominance [FpVal.nan] [FpVal.fin 0] [FpVal.nan] [[FpVal.fin 1]]
     (by decide) (by decide) (by decide) (by decide)⟩

/-- C9 counterexample: `mutationStrength` is a recognized configuration
option (a constructor parameter, moead.hpp line 68) but the class declares
no accessor for it (lines 90-118 expose only the other six), so it is not
readable or mutable between runs through an accessor. -/
theorem mutationStrength_unexposed :
    ConfigOption.mutationStrength ∈ recognizedOptions ∧
    ConfigOption.mutationStrength ∉ accessorOptions := by
  decide

/-- C9 (amended): every recognized configuration option except
`mutationStrength` is exposed through an accessor pair, and each of those
accessors reads back exactly what was written. -/
theorem accessors_ok :
    (∀ opt, opt ∈ recognizedOptions → opt ≠ ConfigOption.mutationStrength →
      opt ∈ accessorOptions) ∧
    (∀ (o : MOEAD) (v : ℕ), (o.setPopulationSize v).PopulationSize = v) ∧
    (∀ (o : MOEAD) (v : ℚ), (o.setCrossoverRate v).CrossoverRate = v) ∧
    (∀ (o : MOEAD) (v : ℚ), (o.setMutationProbability v).MutationProbability = v) ∧
    (∀ (o : MOEAD) (v : ℕ), (o.setNeighbourhoodSize v).NeighbourhoodSize = v) ∧
    (∀ (o : MOEAD) (v : List ℚ), (o.setLowerBound v).LowerBound = v) ∧
    (∀ (o : MOEAD) (v : List ℚ), (o.setUpperBound v).UpperBound = v) := by
  refine ⟨by decide, ?_, ?_, ?_, ?_, ?_, ?_⟩ <;> intro o v <;> rfl

/-- Witness for C9 (amended): populationSize is exposed, and writing 5
through its accessor reads back as 5. -/
theorem accessors_ok_witness :
    (ConfigOption.populationSize ∈ recognizedOptions ∧
     ConfigOption.populationSize ≠ ConfigOption.mutationStrength ∧
     ConfigOption.populationSize ∈ accessorOptions) ∧
    (MOEAD.default.setPopulationSize 5).PopulationSize = 5 :=
  ⟨⟨by decide, by decide, accessors_ok.1 ConfigOption.populationSize
      (by decide) (by decide)⟩,
   accessors_ok.2.1 MOEAD.default 5⟩

/-- C10: the default-constructed optimizer has lowerBound and upperBound
both equal to the length-1 all-ones vector, so the default feasible box is
degenerate: the bounds coincide, and they coincide in every component
after broadcasting to any decision-vector length. -/
theorem default_degenerate_box :
    MOEAD.default.lowerBound = [1] ∧ MOEAD.default.upperBound = [1] ∧
    MOEAD.default.lowerBound = MOEAD.default.upperBound ∧
    ∀ n, broadcastBound MOEAD.default.lowerBound n =
      broadcastBound MOEAD.default.upperBound n :=
  ⟨rfl, rfl, rfl, fun _ => rfl⟩
